import Mathlib

/-!
# Verification of the showtime virtual-time engine

A shallow embedding of `showtime.h` / `showtime.cc` (the `showtime::Clock`
virtual-clock and timer-schedule engine) together with proofs about its
documented properties.

Modelling conventions:
* `Clock::time_point` / `Clock::duration` are tick counts of the reference
  clock (`std::chrono::system_clock`), embedded as `ℤ`.
* The `double` speed of `Linear` is embedded as `ℚ`, with
  `std::chrono::duration_cast` to an integral duration embedded as
  truncation toward zero (`truncQ`).  Rounding of `double` arithmetic is
  not modelled; all concrete instances below use exactly representable
  values.
* `Timer*` identity is a `ℕ` handle into a heap `H : ℕ → Timer`; a null
  pointer (a schedule slot detached by `Clock::remove`) is `none`.
* `std::map<time_point, Timer*>` is a list of key/value pairs kept sorted
  by strictly increasing key (the map invariant), iterated front to back.
* The `while` loop of `explode` (showtime.cc:53) need not terminate
  (a repeating timer whose delay is ≤ 0 loops forever), so it is embedded
  with explicit fuel; running out of fuel yields `Err.fuelOut`.
  Dereferencing a detached slot is undefined behaviour in the source and
  yields `Err.nullDeref`.
-/

namespace Showtime

/-- `showtime::Timer` (showtime.h:118-127): a relative delay `dt`, a repeat
flag (`rep`, the source's `repeat` member) and a `cancelled` flag. -/
structure Timer where
  dt : ℤ
  rep : Bool
  cancelled : Bool
deriving DecidableEq

/-- Failure modes of the embedding: `nullDeref` models the undefined
behaviour of reading `repeat`/`cancelled` through a null `Timer*`;
`fuelOut` models non-termination of the `explode` loop. -/
inductive Err where
  | nullDeref : Err
  | fuelOut : Err
deriving DecidableEq

/-- The schedule `std::map<Clock::time_point, Timer*>` as a key-sorted
association list; `none` is a slot nulled by `Clock::remove`. -/
abbrev Sched := List (ℤ × Option ℕ)

/-- The keys of a schedule, in iteration order. -/
def keys (m : Sched) : List ℤ := m.map Prod.fst

/-- The `std::map` invariant: keys strictly increase front to back. -/
def SortedS (m : Sched) : Prop := List.Pairwise (· < ·) (keys m)

/-- `m.count(t)` (showtime.cc:38): is the key `t` occupied? -/
def hasKey (m : Sched) (t : ℤ) : Bool := m.any fun e => e.1 == t

/-- The `while (m.count(t)) t += duration{1};` loop of `insert`
(showtime.cc:38), run with explicit fuel.  `insertKey` below supplies
fuel `m.length + 1`, which always suffices (`insertKeyGo_free`), so the
fuel-exhausted branch is unreachable. -/
def insertKeyGo (m : Sched) : ℕ → ℤ → ℤ
  | 0, t => t
  | fuel + 1, t => if hasKey m t then insertKeyGo m fuel (t + 1) else t

/-- The key at which `insert` (showtime.cc:34-40) actually places an
entry nominally due at `t`: the first unoccupied key at or after `t`. -/
def insertKey (m : Sched) (t : ℤ) : ℤ := insertKeyGo m (m.length + 1) t

/-- `m.emplace(t, tm)` (showtime.cc:39) on the sorted list, for a key not
already present: place the pair before the first larger key. -/
def putSorted (m : Sched) (t : ℤ) (v : Option ℕ) : Sched :=
  match m with
  | [] => [(t, v)]
  | e :: rest => if t < e.1 then (t, v) :: e :: rest else e :: putSorted rest t v

/-- The `insert` helper (showtime.cc:34-40): bump the key past any
occupied ones, then emplace. -/
def insertT (m : Sched) (t : ℤ) (v : Option ℕ) : Sched :=
  putSorted m (insertKey m t) v

/-- The `while (te < t) { te += tm.dt; insert(m, te, &tm); }` loop of
`explode` (showtime.cc:51-56), with fuel; `none` means the fuel ran out
with the loop still running. -/
def explodeGo (H : ℕ → Timer) (id : ℕ) (t : ℤ) : ℕ → ℤ → Sched → Option Sched
  | 0, te, acc => if te < t then none else some acc
  | fuel + 1, te, acc =>
    if te < t then
      explodeGo H id t fuel (te + (H id).dt) (insertT acc (te + (H id).dt) (some id))
    else some acc

/-- The loop of `repeat` (showtime.cc:67-72): walk the schedule in key
order, stop at the first key > `t`, and explode every repeating
non-cancelled entry into the accumulator `acc`.  Reading `e.second->repeat`
through a detached slot is `Err.nullDeref`. -/
def repeatGo (H : ℕ → Timer) (fuel : ℕ) (t : ℤ) : List (ℤ × Option ℕ) → Sched → Except Err Sched
  | [], acc => .ok acc
  | e :: rest, acc =>
    if t < e.1 then .ok acc
    else
      match e.2 with
      | none => .error .nullDeref
      | some id =>
        if (H id).rep && !(H id).cancelled then
          match explodeGo H id t fuel e.1 acc with
          | none => .error .fuelOut
          | some acc2 => repeatGo H fuel t rest acc2
        else repeatGo H fuel t rest acc

/-- `m.insert(begin(acc), end(acc))` (showtime.cc:73): `std::map::insert`
skips elements whose key is already present. -/
def mergeInto (m : Sched) (acc : Sched) : Sched :=
  acc.foldl (fun m e => if hasKey m e.1 then m else putSorted m e.1 e.2) m

/-- `repeat(timers, t)` (showtime.cc:62-74): explode the repeating
entries at keys ≤ `t` into a side map, then merge it in. -/
def repeatStep (H : ℕ → Timer) (fuel : ℕ) (m : Sched) (t : ℤ) : Except Err Sched :=
  (repeatGo H fuel t m []).map (mergeInto m)

/-- The sweep loop of `set` (showtime.cc:114):
`while (it != end(timers) && it->second->cancelled) it++;` starting from
`upper_bound(t)`.  Returns the skipped (cancelled) prefix and the rest. -/
def sweepGo (H : ℕ → Timer) : List (ℤ × Option ℕ) → Except Err (Sched × Sched)
  | [] => .ok ([], [])
  | e :: rest =>
    match e.2 with
    | none => .error .nullDeref
    | some id =>
      if (H id).cancelled then
        (sweepGo H rest).map fun p => (e :: p.1, p.2)
      else .ok ([], e :: rest)

/-- `elapsed(a, b)` (showtime.cc:79-89): the timers of a range, in order,
skipping cancelled ones. -/
def collectElapsed (H : ℕ → Timer) : List (ℤ × Option ℕ) → Except Err (List ℕ)
  | [] => .ok []
  | e :: rest =>
    match e.2 with
    | none => .error .nullDeref
    | some id =>
      (collectElapsed H rest).map fun l => if (H id).cancelled then l else id :: l

/-- `std::chrono::hours{1}` in `system_clock` ticks (nanoseconds on the
implementation the source targets); the fallback snooze of `set`
(showtime.cc:116). -/
def oneHour : ℤ := 3600 * 1000000000

/-- The outcome of `Clock::set` before the transform is applied to the
snooze: the elapsed timers, the virtual-time snooze, and the surviving
schedule. -/
structure SetOut where
  elapsed : List ℕ
  snoozeV : ℤ
  sched : Sched
deriving DecidableEq

/-- The snooze computation of `set` (showtime.cc:116-117): the distance
from `t` to the cut entry, or one hour if the cut is at the end. -/
def snoozeOf (t : ℤ) (rest : Sched) : ℤ :=
  match rest with
  | [] => oneHour
  | e :: _ => e.1 - t

/-- `Clock::set(t)` (showtime.cc:109-122) at schedule level:
repeat-expansion, cut at `upper_bound(t)` extended past cancelled
entries, snooze from the cut (or the one-hour fallback), elapsed
collection, and destructive erase of everything before the cut. -/
def setSched (H : ℕ → Timer) (fuel : ℕ) (m : Sched) (t : ℤ) : Except Err SetOut := do
  let m2 ← repeatStep H fuel m t
  let (swept, rest) ← sweepGo H (m2.dropWhile fun e => decide (e.1 ≤ t))
  let el ← collectElapsed H ((m2.takeWhile fun e => decide (e.1 ≤ t)) ++ swept)
  return ⟨el, snoozeOf t rest, rest⟩

/-- `showtime::Linear<Clock>` (showtime.h:28-54): `f(x) = kx + m` with a
`double` slope `k` (embedded as `ℚ`) and an integral offset `m`. -/
structure Linear where
  k : ℚ := 1
  m : ℤ := 0
deriving DecidableEq

/-- `std::chrono::duration_cast` to an integral duration: truncation
toward zero. -/
def truncQ (q : ℚ) : ℤ := if 0 ≤ q then ⌊q⌋ else ⌈q⌉

/-- `Linear::operator()(time_point)` (showtime.h:38-43):
`duration_cast<duration>(ddur{k*t} + m)`. -/
def Linear.applyPoint (f : Linear) (x : ℤ) : ℤ := truncQ (f.k * x + f.m)

/-- `Linear::operator()(duration)` (showtime.h:45-49):
`duration_cast<duration>(ddur{k*t})`. -/
def Linear.applyDur (f : Linear) (d : ℤ) : ℤ := truncQ (f.k * d)

/-- The `Linear(other, dt, v)` constructor (showtime.h:56-60):
`k = v`, `m = other.m + dt`. -/
def Linear.compose (f : Linear) (dt : ℤ) (v : ℚ) : Linear := ⟨v, f.m + dt⟩

/-- The idealized inverse of `Linear.applyDur`: mapping a reference-time
duration back to virtual time by dividing by the slope.  Used to state
the wording "converted back through the transform" in the spec. -/
def Linear.unapplyDur (f : Linear) (d : ℤ) : ℚ := (d : ℚ) / f.k

/-- `showtime::Clock` (showtime.h:80-112): a transform plus a schedule. -/
structure Clock where
  f : Linear := {}
  timers : Sched := []
deriving DecidableEq

/-- `Clock::change(a, b, v)` (showtime.cc:25-28): `f = {f, b-a, v}`. -/
def Clock.change (c : Clock) (a b : ℤ) (v : ℚ) : Clock :=
  { c with f := c.f.compose (b - a) v }

/-- `Clock::at(ref)` (showtime.cc:127-130): translate a reference instant
through the transform.  (`at` is reserved in Lean, hence `atRef`.) -/
def Clock.atRef (c : Clock) (r : ℤ) : ℤ := c.f.applyPoint r

/-- `Clock::add(t, tm)` (showtime.cc:144-151): insert at `t + tm->dt`
(with key bumping) and return the transformed distance from the nominal
key (`t` after `t += tm->dt`; `insert` takes its key by value, so the
local `t` is not the bumped key) to the schedule's minimum key. -/
def Clock.add (H : ℕ → Timer) (c : Clock) (now : ℤ) (id : ℕ) : ℤ × Clock :=
  let t := now + (H id).dt
  let m2 := insertT c.timers t (some id)
  let hk := match m2 with
    | [] => 0
    | e :: _ => e.1
  (c.f.applyDur (hk - t), { c with timers := m2 })

/-- `Clock::remove(tm)` (showtime.cc:157-162): null every slot holding
this timer, keeping the keys. -/
def Clock.remove (c : Clock) (id : ℕ) : Clock :=
  { c with timers := c.timers.map fun e => if e.2 = some id then (e.1, none) else e }

/-- `Clock::Ramifications` (showtime.h:96-99). -/
structure Ramifications where
  elapsed : List ℕ
  snooze : ℤ
deriving DecidableEq

/-- `Clock::set(t)` (showtime.cc:109-122) at clock level: `setSched`
plus the transform applied to the virtual snooze. -/
def Clock.set (H : ℕ → Timer) (fuel : ℕ) (c : Clock) (t : ℤ) :
    Except Err (Ramifications × Clock) :=
  (setSched H fuel c.timers t).map fun o =>
    (⟨o.elapsed, c.f.applyDur o.snoozeV⟩, { c with timers := o.sched })

/-- The schedules reachable from a fresh `Clock` by `add`, `set` and
`remove` (the schedule component does not depend on the transform). -/
inductive Reach (H : ℕ → Timer) : Sched → Prop where
  | init : Reach H []
  | add (m : Sched) (now : ℤ) (id : ℕ) :
      Reach H m → Reach H (insertT m (now + (H id).dt) (some id))
  | set (m : Sched) (fuel : ℕ) (t : ℤ) (o : SetOut) :
      Reach H m → setSched H fuel m t = .ok o → Reach H o.sched
  | rem (m : Sched) (id : ℕ) :
      Reach H m → Reach H (m.map fun e => if e.2 = some id then (e.1, none) else e)

/-- Entries are live: no slot has been nulled by `remove`. -/
def AllLive (l : Sched) : Prop := ∀ e ∈ l, e.2 ≠ none

/-- What `elapsed` (showtime.cc:79-89) keeps of a single entry, paired
with its key: `none` for a null or cancelled slot. -/
def elPick (H : ℕ → Timer) (e : ℤ × Option ℕ) : Option (ℤ × ℕ) :=
  match e.2 with
  | none => none
  | some id => if (H id).cancelled then none else some (e.1, id)

/-- The non-cancelled entries of a range, with their keys. -/
def elPairs (H : ℕ → Timer) (l : Sched) : List (ℤ × ℕ) := l.filterMap (elPick H)

/-! ## Concrete timer heaps for the instances below -/

/-- A heap where every handle is a repeating 10-tick timer. -/
def heapRep : ℕ → Timer := fun _ => ⟨10, true, false⟩

/-- A heap where every handle is a one-shot 10-tick timer. -/
def heapOnce : ℕ → Timer := fun _ => ⟨10, false, false⟩

/-- A heap where every handle is a repeating timer with delay 0. -/
def heapZero : ℕ → Timer := fun _ => ⟨0, true, false⟩

/-! ## The claims of the spec, formalized exactly as stated (for refutation) -/

/-- Claim C1 as stated, at one input: every timer of `elapsed` comes from
an entry of the (post-expansion) schedule whose key is strictly below the
target.  (`true` when `set` fails, so a refutation is about a run that
succeeds.) -/
def claimC1At (H : ℕ → Timer) (fuel : ℕ) (m : Sched) (t : ℤ) : Bool :=
  match setSched H fuel m t, repeatStep H fuel m t with
  | .ok o, .ok m2 =>
    o.elapsed.all fun id => m2.any fun e => decide (e.1 < t) && (e.2 == some id)
  | _, _ => true

/-- Claim C2 as stated, at one input: a lone repeating timer first due at
`t0`, advanced by one `set` call to exactly `t0 + N*p`, appears exactly
`N` times in `elapsed`. -/
def claimC2At (H : ℕ → Timer) (fuel : ℕ) (id : ℕ) (t0 p : ℤ) (N : ℕ) : Bool :=
  match setSched H fuel [(t0, some id)] (t0 + (N : ℤ) * p) with
  | .ok o => o.elapsed.count id == N
  | .error _ => true

/-- Claim C3 as stated, at one input: the duration returned by
`add(now, tm)`, converted back to virtual time through the current
transform and added to `now`, equals the minimum key of the schedule
after the insertion. -/
def claimC3At (H : ℕ → Timer) (c : Clock) (now : ℤ) (id : ℕ) : Prop :=
  ∀ hd tail, (Clock.add H c now id).2.timers = hd :: tail →
    c.f.unapplyDur (Clock.add H c now id).1 + (now : ℚ) = (hd.1 : ℚ)

/-- Claim C4 as stated, at one input: after `change(a, b, v)`, `at(a)`
returns `b`. -/
def claimC4At (c : Clock) (a b : ℤ) (v : ℚ) : Prop :=
  (c.change a b v).atRef a = b

/-- The termination property of claim C5 for one schedule entry: the explode
loop for an entry stored at key `te`, run against target `t`, completes
with some amount of fuel (fuel-completion is exactly termination of the
source's unbounded `while` loop). -/
def ExplodeTerminatesAt (H : ℕ → Timer) (id : ℕ) (t te : ℤ) : Prop :=
  ∃ fuel acc, explodeGo H id t fuel te [] = some acc

instance (m : Sched) : Decidable (SortedS m) := by
  unfold SortedS
  infer_instance

instance (l : Sched) : Decidable (AllLive l) := by
  unfold AllLive
  infer_instance

/-! ## Basic schedule lemmas -/

theorem hasKey_iff {m : Sched} {t : ℤ} : hasKey m t = true ↔ t ∈ keys m := by
  simp [hasKey, keys, List.any_eq_true]

theorem hasKey_false_iff {m : Sched} {t : ℤ} : hasKey m t = false ↔ t ∉ keys m := by
  rw [← Bool.not_eq_true, not_iff_not]
  exact hasKey_iff

theorem mem_putSorted {m : Sched} {t : ℤ} {v : Option ℕ} {e : ℤ × Option ℕ} :
    e ∈ putSorted m t v ↔ e = (t, v) ∨ e ∈ m := by
  induction m with
  | nil => simp [putSorted]
  | cons a rest ih =>
    by_cases h : t < a.1
    · simp [putSorted, h]
    · simp only [putSorted, if_neg h, List.mem_cons, ih]
      tauto

theorem mem_keys_putSorted {m : Sched} {t k : ℤ} {v : Option ℕ} :
    k ∈ keys (putSorted m t v) ↔ k = t ∨ k ∈ keys m := by
  simp only [keys, List.mem_map]
  constructor
  · rintro ⟨e, he, rfl⟩
    rcases mem_putSorted.mp he with h | h
    · left; rw [h]
    · right; exact ⟨e, h, rfl⟩
  · rintro (rfl | ⟨e, he, rfl⟩)
    · exact ⟨(k, v), mem_putSorted.mpr (Or.inl rfl), rfl⟩
    · exact ⟨e, mem_putSorted.mpr (Or.inr he), rfl⟩

theorem putSorted_sorted {m : Sched} {t : ℤ} {v : Option ℕ}
    (hs : SortedS m) (hf : t ∉ keys m) : SortedS (putSorted m t v) := by
  induction m with
  | nil => simp [putSorted, SortedS, keys]
  | cons a rest ih =>
    simp only [SortedS, keys, List.map_cons, List.pairwise_cons] at hs
    obtain ⟨ha, hrest⟩ := hs
    simp only [keys, List.map_cons, List.mem_cons, not_or] at hf
    obtain ⟨hta, htrest⟩ := hf
    by_cases h : t < a.1
    · simp only [putSorted, if_pos h, SortedS, keys, List.map_cons, List.pairwise_cons]
      refine ⟨?_, ?_, hrest⟩
      · intro b hb
        rcases List.mem_cons.mp hb with rfl | hb
        · exact h
        · exact lt_trans h (ha b hb)
      · exact ha
    · have hat : a.1 < t := by omega
      simp only [putSorted, if_neg h, SortedS, keys, List.map_cons, List.pairwise_cons]
      refine ⟨?_, ih hrest htrest⟩
      intro b hb
      have : b = t ∨ b ∈ keys rest := mem_keys_putSorted.mp hb
      rcases this with rfl | hb'
      · exact hat
      · exact ha b hb'

theorem le_insertKeyGo (m : Sched) : ∀ (fuel : ℕ) (t : ℤ), t ≤ insertKeyGo m fuel t := by
  intro fuel
  induction fuel with
  | zero => intro t; simp [insertKeyGo]
  | succ n ih =>
    intro t
    simp only [insertKeyGo]
    split
    · exact le_trans (by omega) (ih (t + 1))
    · exact le_refl t

theorem insertKeyGo_min (m : Sched) : ∀ (fuel : ℕ) (t k : ℤ),
    t ≤ k → k < insertKeyGo m fuel t → k ∈ keys m := by
  intro fuel
  induction fuel with
  | zero => intro t k h1 h2; simp [insertKeyGo] at h2; omega
  | succ n ih =>
    intro t k h1 h2
    simp only [insertKeyGo] at h2
    by_cases h : hasKey m t
    · rw [if_pos h] at h2
      rcases eq_or_lt_of_le h1 with rfl | hlt
      · exact hasKey_iff.mp h
      · exact ih (t + 1) k (by omega) h2
    · rw [if_neg h] at h2; omega

theorem insertKeyGo_free {m : Sched} : ∀ (fuel : ℕ) (t : ℤ),
    (∃ i : ℕ, i < fuel ∧ hasKey m (t + i) = false) →
    hasKey m (insertKeyGo m fuel t) = false := by
  intro fuel
  induction fuel with
  | zero => rintro t ⟨i, hi, _⟩; omega
  | succ n ih =>
    rintro t ⟨i, hi, hfree⟩
    simp only [insertKeyGo]
    by_cases h : hasKey m t
    · rw [if_pos h]
      rcases i with _ | j
      · simp only [Nat.cast_zero, add_zero] at hfree
        rw [hfree] at h; simp at h
      · refine ih (t + 1) ⟨j, by omega, ?_⟩
        have heq : t + 1 + (j : ℤ) = t + ((j + 1 : ℕ) : ℤ) := by push_cast; ring
        rw [heq]; exact hfree
    · rw [if_neg h]
      simpa using h

theorem exists_free_key (m : Sched) (t : ℤ) :
    ∃ i : ℕ, i ≤ m.length ∧ hasKey m (t + i) = false := by
  by_contra hc
  push_neg at hc
  have hall : ∀ i : ℕ, i ≤ m.length → (t + (i : ℤ)) ∈ keys m := by
    intro i hi
    have hne := hc i hi
    have h : hasKey m (t + (i : ℤ)) = true := by
      cases hb : hasKey m (t + (i : ℤ)) with
      | false => exact absurd hb hne
      | true => rfl
    exact hasKey_iff.mp h
  have hinj : Function.Injective (fun i : ℕ => t + (i : ℤ)) := by
    intro a b hab
    simp only at hab
    omega
  have hsub : (Finset.range (m.length + 1)).image (fun i : ℕ => t + (i : ℤ)) ⊆
      (keys m).toFinset := by
    intro x hx
    simp only [Finset.mem_image, Finset.mem_range] at hx
    obtain ⟨i, hi, rfl⟩ := hx
    rw [List.mem_toFinset]
    exact hall i (by omega)
  have hcard : m.length + 1 ≤ (keys m).toFinset.card := by
    calc m.length + 1 = (Finset.range (m.length + 1)).card := (Finset.card_range _).symm
    _ = ((Finset.range (m.length + 1)).image (fun i : ℕ => t + (i : ℤ))).card :=
        (Finset.card_image_of_injective _ hinj).symm
    _ ≤ (keys m).toFinset.card := Finset.card_le_card hsub
  have hlen : (keys m).toFinset.card ≤ (keys m).length := (keys m).toFinset_card_le
  have : (keys m).length = m.length := List.length_map _ _
  omega

theorem insertKey_not_mem (m : Sched) (t : ℤ) : insertKey m t ∉ keys m := by
  rw [← hasKey_false_iff]
  refine insertKeyGo_free (m.length + 1) t ?_
  obtain ⟨i, hi, hfree⟩ := exists_free_key m t
  exact ⟨i, by omega, hfree⟩

theorem le_insertKey (m : Sched) (t : ℤ) : t ≤ insertKey m t :=
  le_insertKeyGo m (m.length + 1) t

theorem insertKey_min (m : Sched) (t k : ℤ) (h1 : t ≤ k) (h2 : k < insertKey m t) :
    k ∈ keys m :=
  insertKeyGo_min m (m.length + 1) t k h1 h2

theorem mem_insertT {m : Sched} {t : ℤ} {v : Option ℕ} {e : ℤ × Option ℕ} :
    e ∈ insertT m t v ↔ e = (insertKey m t, v) ∨ e ∈ m :=
  mem_putSorted

theorem insertT_sorted {m : Sched} {t : ℤ} {v : Option ℕ} (hs : SortedS m) :
    SortedS (insertT m t v) :=
  putSorted_sorted hs (insertKey_not_mem m t)

/-! ## Except helpers -/

theorem exceptMap_eq_ok {ε α β : Type} {f : α → β} {r : Except ε α} {b : β} :
    r.map f = .ok b ↔ ∃ a, r = .ok a ∧ f a = b := by
  cases r with
  | error e => simp [Except.map]
  | ok a => simp [Except.map]

theorem exceptBind_eq_ok {ε α β : Type} {f : α → Except ε β} {r : Except ε α} {b : β} :
    r >>= f = .ok b ↔ ∃ a, r = .ok a ∧ f a = .ok b := by
  cases r with
  | error e => simp [Bind.bind, Except.bind]
  | ok a => simp [Bind.bind, Except.bind]

theorem exceptBind_ok {ε α β : Type} (a : α) (f : α → Except ε β) :
    (Except.ok a : Except ε α) >>= f = f a := rfl

theorem exceptPure_eq_ok {ε α : Type} (a : α) : (pure a : Except ε α) = .ok a := rfl

/-! ## mergeInto lemmas -/

theorem mergeInto_nil (m : Sched) : mergeInto m [] = m := rfl

theorem mem_mergeInto {acc : Sched} : ∀ {m : Sched} {e : ℤ × Option ℕ},
    e ∈ mergeInto m acc → e ∈ m ∨ e ∈ acc := by
  induction acc with
  | nil => intro m e h; exact Or.inl h
  | cons a acc ih =>
    intro m e h
    have h' := ih (m := if hasKey m a.1 then m else putSorted m a.1 a.2) h
    rcases h' with h' | h'
    · by_cases hk : hasKey m a.1
      · rw [if_pos hk] at h'; exact Or.inl h'
      · rw [if_neg hk] at h'
        rcases mem_putSorted.mp h' with rfl | h''
        · exact Or.inr (List.mem_cons_self _ _)
        · exact Or.inl h''
    · exact Or.inr (List.mem_cons_of_mem _ h')

theorem mergeInto_sorted {acc : Sched} : ∀ {m : Sched}, SortedS m →
    SortedS (mergeInto m acc) := by
  induction acc with
  | nil => intro m h; exact h
  | cons a acc ih =>
    intro m h
    refine ih ?_
    show SortedS (if hasKey m a.1 then m else putSorted m a.1 a.2)
    by_cases hk : hasKey m a.1
    · rw [if_pos hk]; exact h
    · rw [if_neg hk]
      exact putSorted_sorted h (hasKey_false_iff.mp (by simpa using hk))

theorem putSorted_append {m : Sched} {t : ℤ} {v : Option ℕ}
    (h : ∀ k ∈ keys m, k < t) : putSorted m t v = m ++ [(t, v)] := by
  induction m with
  | nil => simp [putSorted]
  | cons a rest ih =>
    have ha : a.1 < t := h a.1 (by simp [keys])
    simp only [putSorted, if_neg (by omega : ¬ t < a.1), List.cons_append]
    rw [ih]
    intro k hk
    exact h k (by simp [keys] at hk ⊢; tauto)

theorem mergeInto_append {acc : Sched} : ∀ {m : Sched}, SortedS (m ++ acc) →
    mergeInto m acc = m ++ acc := by
  induction acc with
  | nil => intro m _; simp [mergeInto_nil]
  | cons a acc ih =>
    intro m h
    have hkeys : keys (m ++ a :: acc) = keys m ++ a.1 :: keys acc := by
      simp [keys]
    have hp : List.Pairwise (· < ·) (keys m ++ a.1 :: keys acc) := by
      rw [← hkeys]; exact h
    have hlt : ∀ k ∈ keys m, k < a.1 := by
      intro k hk
      exact (List.pairwise_append.mp hp).2.2 k hk a.1 (by simp)
    have hfresh : hasKey m a.1 = false := by
      rw [hasKey_false_iff]
      intro hmem
      exact lt_irrefl a.1 (hlt a.1 hmem)
    have hstep : mergeInto m (a :: acc) = mergeInto (m ++ [a]) acc := by
      simp only [mergeInto, List.foldl_cons, hfresh, Bool.false_eq_true, if_false]
      rw [putSorted_append hlt]
    rw [hstep]
    have hassoc : (m ++ [a]) ++ acc = m ++ a :: acc := by simp
    rw [ih (by rw [hassoc]; exact h), hassoc]

/-! ## explodeGo lemmas -/

theorem explodeGo_mem_mono {H : ℕ → Timer} {id : ℕ} {t : ℤ} :
    ∀ {fuel : ℕ} {te : ℤ} {acc acc' : Sched}, explodeGo H id t fuel te acc = some acc' →
    ∀ {e}, e ∈ acc → e ∈ acc' := by
  intro fuel
  induction fuel with
  | zero =>
    intro te acc acc' h e he
    simp only [explodeGo] at h
    split at h
    · cases h
    · cases h; exact he
  | succ n ih =>
    intro te acc acc' h e he
    simp only [explodeGo] at h
    split at h
    · exact ih h (mem_insertT.mpr (Or.inr he))
    · cases h; exact he

theorem explodeGo_values {H : ℕ → Timer} {id : ℕ} {t : ℤ} :
    ∀ {fuel : ℕ} {te : ℤ} {acc acc' : Sched}, explodeGo H id t fuel te acc = some acc' →
    ∀ {e}, e ∈ acc' → e ∈ acc ∨ e.2 = some id := by
  intro fuel
  induction fuel with
  | zero =>
    intro te acc acc' h e he
    simp only [explodeGo] at h
    split at h
    · cases h
    · cases h; exact Or.inl he
  | succ n ih =>
    intro te acc acc' h e he
    simp only [explodeGo] at h
    split at h
    · rcases ih h he with h' | h'
      · rcases mem_insertT.mp h' with rfl | h''
        · exact Or.inr rfl
        · exact Or.inl h''
      · exact Or.inr h'
    · cases h; exact Or.inl he

theorem explodeGo_sorted {H : ℕ → Timer} {id : ℕ} {t : ℤ} :
    ∀ {fuel : ℕ} {te : ℤ} {acc acc' : Sched}, explodeGo H id t fuel te acc = some acc' →
    SortedS acc → SortedS acc' := by
  intro fuel
  induction fuel with
  | zero =>
    intro te acc acc' h hs
    simp only [explodeGo] at h
    split at h
    · cases h
    · cases h; exact hs
  | succ n ih =>
    intro te acc acc' h hs
    simp only [explodeGo] at h
    split at h
    · exact ih h (insertT_sorted hs)
    · cases h; exact hs

/-! ## repeatGo lemmas -/

theorem repeatGo_values {H : ℕ → Timer} {fuel : ℕ} {t : ℤ} :
    ∀ {l : List (ℤ × Option ℕ)} {acc acc' : Sched},
    repeatGo H fuel t l acc = .ok acc' → AllLive acc → AllLive acc' := by
  intro l
  induction l with
  | nil =>
    intro acc acc' h hl
    simp only [repeatGo] at h
    cases h; exact hl
  | cons e rest ih =>
    intro acc acc' h hl
    simp only [repeatGo] at h
    split at h
    · cases h; exact hl
    · split at h
      · cases h
      · rename_i id he
        split at h
        · split at h
          · cases h
          · rename_i acc2 hex
            refine ih h ?_
            intro x hx
            rcases explodeGo_values hex hx with h' | h'
            · exact hl x h'
            · rw [h']; exact Option.some_ne_none id
        · exact ih h hl

theorem repeatGo_sorted {H : ℕ → Timer} {fuel : ℕ} {t : ℤ} :
    ∀ {l : List (ℤ × Option ℕ)} {acc acc' : Sched},
    repeatGo H fuel t l acc = .ok acc' → SortedS acc → SortedS acc' := by
  intro l
  induction l with
  | nil =>
    intro acc acc' h hs
    simp only [repeatGo] at h
    cases h; exact hs
  | cons e rest ih =>
    intro acc acc' h hs
    simp only [repeatGo] at h
    split at h
    · cases h; exact hs
    · split at h
      · cases h
      · rename_i id he
        split at h
        · split at h
          · cases h
          · rename_i acc2 hex
            exact ih h (explodeGo_sorted hex hs)
        · exact ih h hs

theorem repeatGo_of_future {H : ℕ → Timer} {fuel : ℕ} {t : ℤ} {l : List (ℤ × Option ℕ)}
    {acc : Sched} (h : ∀ e ∈ l, t < e.1) : repeatGo H fuel t l acc = .ok acc := by
  cases l with
  | nil => rfl
  | cons e rest =>
    simp only [repeatGo, if_pos (h e (List.mem_cons_self _ _))]

/-! ## Cut lemmas: the prefix at keys ≤ t and the suffix past t -/

theorem mem_pre_le {m : Sched} {t : ℤ} {e : ℤ × Option ℕ}
    (h : e ∈ m.takeWhile fun e => decide (e.1 ≤ t)) : e.1 ≤ t := by
  have := List.mem_takeWhile_imp h
  simpa using this

theorem sorted_dropWhile_gt {t : ℤ} : ∀ {m : Sched}, SortedS m →
    ∀ e ∈ m.dropWhile fun e => decide (e.1 ≤ t), t < e.1 := by
  intro m
  induction m with
  | nil => intro _ e he; simp [List.dropWhile] at he
  | cons a rest ih =>
    intro hs e he
    simp only [SortedS, keys, List.map_cons, List.pairwise_cons] at hs
    simp only [List.dropWhile_cons] at he
    by_cases ha : a.1 ≤ t
    · rw [if_pos (by simpa using ha)] at he
      exact ih hs.2 e he
    · rw [if_neg (by simpa using ha)] at he
      rcases List.mem_cons.mp he with rfl | he'
      · omega
      · have := hs.1 e.1 (List.mem_map_of_mem Prod.fst he')
        omega

theorem sorted_takeWhile {m : Sched} {t : ℤ} (hs : SortedS m) :
    SortedS (m.takeWhile fun e => decide (e.1 ≤ t)) :=
  List.Pairwise.sublist (List.Sublist.map Prod.fst (List.takeWhile_sublist _)) hs

theorem sorted_dropWhile {m : Sched} {t : ℤ} (hs : SortedS m) :
    SortedS (m.dropWhile fun e => decide (e.1 ≤ t)) :=
  List.Pairwise.sublist (List.Sublist.map Prod.fst (List.dropWhile_sublist _)) hs

/-! ## sweepGo lemmas -/

theorem sweepGo_spec {H : ℕ → Timer} : ∀ {post swept rest : Sched},
    sweepGo H post = .ok (swept, rest) →
    post = swept ++ rest ∧
    (∀ e ∈ swept, ∃ id, e.2 = some id ∧ (H id).cancelled = true) ∧
    (∀ e tail, rest = e :: tail → ∃ id, e.2 = some id ∧ (H id).cancelled = false) := by
  intro post
  induction post with
  | nil =>
    intro swept rest h
    simp only [sweepGo, Except.ok.injEq, Prod.mk.injEq] at h
    obtain ⟨rfl, rfl⟩ := h
    exact ⟨rfl, by simp, by simp⟩
  | cons e post ih =>
    intro swept rest h
    simp only [sweepGo] at h
    split at h
    · cases h
    · rename_i id he
      split at h
      · rename_i hc
        rw [exceptMap_eq_ok] at h
        obtain ⟨⟨s', r'⟩, hsweep, heq⟩ := h
        simp only [Prod.mk.injEq] at heq
        obtain ⟨rfl, rfl⟩ := heq
        obtain ⟨hpost, hsweptc, hrest⟩ := ih hsweep
        refine ⟨by rw [List.cons_append, ← hpost], ?_, hrest⟩
        intro x hx
        rcases List.mem_cons.mp hx with rfl | hx'
        · exact ⟨id, he, hc⟩
        · exact hsweptc x hx'
      · rename_i hc
        simp only [Except.ok.injEq, Prod.mk.injEq] at h
        obtain ⟨rfl, rfl⟩ := h
        refine ⟨by simp, by simp, ?_⟩
        intro x tail hx
        rw [List.cons_eq_cons] at hx
        obtain ⟨rfl, rfl⟩ := hx
        exact ⟨id, he, by simpa using hc⟩

theorem sweepGo_ok_of_live {H : ℕ → Timer} : ∀ {post : Sched}, AllLive post →
    ∃ p, sweepGo H post = .ok p := by
  intro post
  induction post with
  | nil => intro _; exact ⟨([], []), rfl⟩
  | cons e post ih =>
    intro hl
    cases he : e.2 with
    | none => exact absurd he (hl e (List.mem_cons_self _ _))
    | some id =>
      by_cases hc : (H id).cancelled
      · obtain ⟨p, hp⟩ := ih fun x hx => hl x (List.mem_cons_of_mem _ hx)
        refine ⟨(e :: p.1, p.2), ?_⟩
        simp only [sweepGo, he, if_pos hc, hp, Except.map]
      · refine ⟨([], e :: post), ?_⟩
        simp only [sweepGo, he, if_neg hc]

/-! ## elapsed collection lemmas -/

theorem collectElapsed_ok_pairs {H : ℕ → Timer} : ∀ {l : Sched} {el : List ℕ},
    collectElapsed H l = .ok el → el = (elPairs H l).map Prod.snd := by
  intro l
  induction l with
  | nil =>
    intro el h
    simp only [collectElapsed, Except.ok.injEq] at h
    simp [← h, elPairs]
  | cons e rest ih =>
    intro el h
    simp only [collectElapsed] at h
    split at h
    · cases h
    · rename_i id he
      rw [exceptMap_eq_ok] at h
      obtain ⟨l', hrest, rfl⟩ := h
      have hl' := ih hrest
      by_cases hc : (H id).cancelled
      · simp [elPairs, List.filterMap_cons, elPick, he, hc, hl']
      · simp [elPairs, List.filterMap_cons, elPick, he, hc, hl']

theorem collectElapsed_ok_of_live {H : ℕ → Timer} : ∀ {l : Sched}, AllLive l →
    ∃ el, collectElapsed H l = .ok el := by
  intro l
  induction l with
  | nil => intro _; exact ⟨[], rfl⟩
  | cons e rest ih =>
    intro hl
    cases he : e.2 with
    | none => exact absurd he (hl e (List.mem_cons_self _ _))
    | some id =>
      obtain ⟨el, hel⟩ := ih fun x hx => hl x (List.mem_cons_of_mem _ hx)
      refine ⟨if (H id).cancelled then el else id :: el, ?_⟩
      simp only [collectElapsed, he, hel, Except.map]

theorem mem_elPairs {H : ℕ → Timer} {l : Sched} {pr : ℤ × ℕ} (h : pr ∈ elPairs H l) :
    (pr.1, some pr.2) ∈ l ∧ (H pr.2).cancelled = false := by
  simp only [elPairs, List.mem_filterMap] at h
  obtain ⟨e, he, hf⟩ := h
  unfold elPick at hf
  split at hf
  · cases hf
  · rename_i id he2
    split at hf
    · cases hf
    · rename_i hc
      cases hf
      refine ⟨?_, by simpa using hc⟩
      rw [← he2, Prod.mk.eta]
      exact he

theorem elPairs_append {H : ℕ → Timer} {l1 l2 : Sched} :
    elPairs H (l1 ++ l2) = elPairs H l1 ++ elPairs H l2 :=
  List.filterMap_append _ _ _

theorem elPairs_eq_nil {H : ℕ → Timer} {l : Sched}
    (h : ∀ e ∈ l, ∃ id, e.2 = some id ∧ (H id).cancelled = true) : elPairs H l = [] := by
  induction l with
  | nil => rfl
  | cons e rest ih =>
    obtain ⟨id, hid, hc⟩ := h e (List.mem_cons_self _ _)
    have : elPick H e = none := by simp [elPick, hid, hc]
    simp only [elPairs, List.filterMap_cons, this]
    exact ih fun x hx => h x (List.mem_cons_of_mem _ hx)

theorem elPairs_keys_sublist (H : ℕ → Timer) : ∀ (l : Sched),
    List.Sublist ((elPairs H l).map Prod.fst) (l.map Prod.fst) := by
  intro l
  induction l with
  | nil => simp [elPairs]
  | cons e rest ih =>
    cases he : e.2 with
    | none =>
      have : elPick H e = none := by simp [elPick, he]
      simp only [elPairs, List.filterMap_cons, this, List.map_cons]
      exact List.Sublist.cons _ ih
    | some id =>
      by_cases hc : (H id).cancelled
      · have : elPick H e = none := by simp [elPick, he, hc]
        simp only [elPairs, List.filterMap_cons, this, List.map_cons]
        exact List.Sublist.cons _ ih
      · have : elPick H e = some (e.1, id) := by simp [elPick, he, hc]
        simp only [elPairs, List.filterMap_cons, this, List.map_cons]
        exact List.Sublist.cons₂ _ ih

/-! ## repeatStep lemmas -/

theorem repeatStep_ok_elim {H : ℕ → Timer} {fuel : ℕ} {m : Sched} {t : ℤ} {m2 : Sched}
    (h : repeatStep H fuel m t = .ok m2) :
    ∃ acc, repeatGo H fuel t m [] = .ok acc ∧ m2 = mergeInto m acc := by
  unfold repeatStep at h
  rw [exceptMap_eq_ok] at h
  obtain ⟨acc, h1, h2⟩ := h
  exact ⟨acc, h1, h2.symm⟩

theorem repeatStep_sorted {H : ℕ → Timer} {fuel : ℕ} {m : Sched} {t : ℤ} {m2 : Sched}
    (h : repeatStep H fuel m t = .ok m2) (hs : SortedS m) : SortedS m2 := by
  obtain ⟨acc, _, rfl⟩ := repeatStep_ok_elim h
  exact mergeInto_sorted hs

theorem repeatStep_live {H : ℕ → Timer} {fuel : ℕ} {m : Sched} {t : ℤ} {m2 : Sched}
    (h : repeatStep H fuel m t = .ok m2) (hl : AllLive m) : AllLive m2 := by
  obtain ⟨acc, hgo, rfl⟩ := repeatStep_ok_elim h
  intro e he
  rcases mem_mergeInto he with h' | h'
  · exact hl e h'
  · exact repeatGo_values hgo (fun x hx => absurd hx (List.not_mem_nil x)) e h'

/-! ## setSched destructuring -/

theorem setSched_ok_elim {H : ℕ → Timer} {fuel : ℕ} {m : Sched} {t : ℤ} {o : SetOut}
    (h : setSched H fuel m t = .ok o) :
    ∃ m2 swept rest el,
      repeatStep H fuel m t = .ok m2 ∧
      sweepGo H (m2.dropWhile fun e => decide (e.1 ≤ t)) = .ok (swept, rest) ∧
      collectElapsed H ((m2.takeWhile fun e => decide (e.1 ≤ t)) ++ swept) = .ok el ∧
      o = ⟨el, snoozeOf t rest, rest⟩ := by
  simp only [setSched, exceptBind_eq_ok] at h
  obtain ⟨m2, h1, ⟨⟨swept, rest⟩, h2, el, h3, h4⟩⟩ := h
  refine ⟨m2, swept, rest, el, h1, h2, h3, ?_⟩
  simp only [exceptPure_eq_ok, Except.ok.injEq] at h4
  exact h4.symm

theorem setSched_eq_ok {H : ℕ → Timer} {fuel : ℕ} {m : Sched} {t : ℤ}
    {m2 swept rest : Sched} {el : List ℕ}
    (h1 : repeatStep H fuel m t = .ok m2)
    (h2 : sweepGo H (m2.dropWhile fun e => decide (e.1 ≤ t)) = .ok (swept, rest))
    (h3 : collectElapsed H ((m2.takeWhile fun e => decide (e.1 ≤ t)) ++ swept) = .ok el) :
    setSched H fuel m t = .ok ⟨el, snoozeOf t rest, rest⟩ := by
  simp only [setSched, h1, exceptBind_ok, h2, h3, exceptPure_eq_ok]

theorem setSched_sched_future {H : ℕ → Timer} {fuel : ℕ} {m : Sched} {t : ℤ} {o : SetOut}
    (h : setSched H fuel m t = .ok o) (hs : SortedS m) : ∀ e ∈ o.sched, t < e.1 := by
  obtain ⟨m2, swept, rest, el, h1, h2, h3, rfl⟩ := setSched_ok_elim h
  intro e he
  have hm2 : SortedS m2 := repeatStep_sorted h1 hs
  have hpost := (sweepGo_spec h2).1
  apply sorted_dropWhile_gt hm2
  rw [hpost]
  exact List.mem_append_right _ he

theorem setSched_sched_live {H : ℕ → Timer} {fuel : ℕ} {m : Sched} {t : ℤ} {o : SetOut}
    (h : setSched H fuel m t = .ok o) (hl : AllLive m) : AllLive o.sched := by
  obtain ⟨m2, swept, rest, el, h1, h2, h3, rfl⟩ := setSched_ok_elim h
  have hm2 : AllLive m2 := repeatStep_live h1 hl
  intro e he
  have hpost := (sweepGo_spec h2).1
  have : e ∈ m2.dropWhile fun e => decide (e.1 ≤ t) := by
    rw [hpost]; exact List.mem_append_right _ he
  exact hm2 e ((List.dropWhile_sublist _).subset this)

theorem setSched_sorted {H : ℕ → Timer} {fuel : ℕ} {m : Sched} {t : ℤ} {o : SetOut}
    (h : setSched H fuel m t = .ok o) (hs : SortedS m) : SortedS o.sched := by
  obtain ⟨m2, swept, rest, el, h1, h2, h3, rfl⟩ := setSched_ok_elim h
  have hm2 : SortedS m2 := repeatStep_sorted h1 hs
  have hpost := (sweepGo_spec h2).1
  have hdrop : SortedS (m2.dropWhile fun e => decide (e.1 ≤ t)) := sorted_dropWhile hm2
  rw [hpost] at hdrop
  exact List.Pairwise.sublist (List.Sublist.map Prod.fst (List.sublist_append_right _ _)) hdrop

theorem takeWhile_nil_of_future {m : Sched} {t : ℤ} (hf : ∀ e ∈ m, t < e.1) :
    (m.takeWhile fun e => decide (e.1 ≤ t)) = [] := by
  cases m with
  | nil => rfl
  | cons a rest =>
    have h1 := hf a (List.mem_cons_self _ _)
    have hna : ¬ a.1 ≤ t := by omega
    simp [List.takeWhile_cons, hna]

theorem dropWhile_all_of_future {m : Sched} {t : ℤ} (hf : ∀ e ∈ m, t < e.1) :
    (m.dropWhile fun e => decide (e.1 ≤ t)) = m := by
  cases m with
  | nil => rfl
  | cons a rest =>
    have h1 := hf a (List.mem_cons_self _ _)
    have hna : ¬ a.1 ≤ t := by omega
    simp [List.dropWhile_cons, hna]

theorem set_future_empty {H : ℕ → Timer} (fuel : ℕ) {m : Sched} {t : ℤ}
    (hl : AllLive m) (hf : ∀ e ∈ m, t < e.1) :
    ∃ o, setSched H fuel m t = .ok o ∧ o.elapsed = [] := by
  have h1 : repeatStep H fuel m t = .ok m := by
    unfold repeatStep
    rw [repeatGo_of_future hf]
    simp [Except.map, mergeInto_nil]
  have hlive : AllLive (m.dropWhile fun e => decide (e.1 ≤ t)) := by
    rw [dropWhile_all_of_future hf]; exact hl
  obtain ⟨⟨swept, rest⟩, h2⟩ := sweepGo_ok_of_live (H := H) hlive
  have hsw := sweepGo_spec h2
  have hswlive : AllLive ((m.takeWhile fun e => decide (e.1 ≤ t)) ++ swept) := by
    rw [takeWhile_nil_of_future hf, List.nil_append]
    intro e he
    obtain ⟨id, hid, _⟩ := hsw.2.1 e he
    rw [hid]; exact Option.some_ne_none id
  obtain ⟨el, h3⟩ := collectElapsed_ok_of_live hswlive
  have hel : el = [] := by
    have hpairs := collectElapsed_ok_pairs h3
    rw [takeWhile_nil_of_future hf, List.nil_append] at hpairs
    rw [hpairs, elPairs_eq_nil (fun e he => hsw.2.1 e he)]
    rfl
  exact ⟨_, setSched_eq_ok h1 h2 h3, hel⟩

/-! ## Running the explode loop -/

theorem insertKey_of_free {m : Sched} {t : ℤ} (h : hasKey m t = false) :
    insertKey m t = t := by
  unfold insertKey insertKeyGo
  rw [h]
  rfl

theorem insertT_append {acc : Sched} {k : ℤ} {v : Option ℕ}
    (hk : ∀ x ∈ keys acc, x < k) : insertT acc k v = acc ++ [(k, v)] := by
  have hfree : hasKey acc k = false := by
    rw [hasKey_false_iff]
    intro hmem
    exact lt_irrefl k (hk k hmem)
  rw [insertT, insertKey_of_free hfree]
  exact putSorted_append hk

theorem explodeGo_done {H : ℕ → Timer} {id : ℕ} {t : ℤ} {fuel : ℕ} {te : ℤ} {acc : Sched}
    (h : ¬ te < t) : explodeGo H id t fuel te acc = some acc := by
  cases fuel <;> simp [explodeGo, h]

theorem explodeGo_run {H : ℕ → Timer} {id : ℕ} {p t : ℤ} (hdt : (H id).dt = p)
    (hp : 0 < p) : ∀ (n fuel : ℕ) (te : ℤ) (acc : Sched),
    (∀ x ∈ keys acc, x < te + p) → SortedS acc →
    (∀ i : ℕ, i < n → te + i * p < t) → t ≤ te + n * p → n ≤ fuel →
    explodeGo H id t fuel te acc =
      some (acc ++ (List.range n).map fun (i : ℕ) => (te + ((i : ℤ) + 1) * p, some id)) := by
  intro n
  induction n with
  | zero =>
    intro fuel te acc _ _ _ hle _
    simp only [Nat.cast_zero, zero_mul, add_zero] at hle
    simp [explodeGo_done (by omega : ¬ te < t)]
  | succ n ih =>
    intro fuel te acc hlt hs hcond hle hfuel
    have hte : te < t := by
      have := hcond 0 (by omega)
      simpa using this
    obtain ⟨f, rfl⟩ : ∃ f, fuel = f + 1 := ⟨fuel - 1, by omega⟩
    have hins : insertT acc (te + (H id).dt) (some id) = acc ++ [(te + p, some id)] := by
      rw [hdt]
      exact insertT_append hlt
    have hsorted2 : SortedS (acc ++ [(te + p, some id)]) := by
      rw [← hins, hdt]
      exact insertT_sorted hs
    have hkeys2 : ∀ x ∈ keys (acc ++ [(te + p, some id)]), x < (te + p) + p := by
      intro x hx
      simp only [keys, List.map_append, List.mem_append, List.map_cons, List.map_nil,
        List.mem_singleton] at hx
      rcases hx with hx | rfl
      · have := hlt x hx; omega
      · omega
    have hcond2 : ∀ i : ℕ, i < n → (te + p) + i * p < t := by
      intro i hi
      have := hcond (i + 1) (by omega)
      push_cast at this ⊢
      linarith
    have hle2 : t ≤ (te + p) + n * p := by
      push_cast at hle ⊢
      linarith
    have hstep : explodeGo H id t (f + 1) te acc =
        explodeGo H id t f (te + (H id).dt) (insertT acc (te + (H id).dt) (some id)) := by
      simp [explodeGo, hte]
    rw [hstep, hins, hdt, ih f (te + p) (acc ++ [(te + p, some id)]) hkeys2 hsorted2
      hcond2 hle2 (by omega)]
    congr 1
    rw [List.range_succ_eq_map, List.map_cons, List.map_map, List.append_assoc,
      List.singleton_append]
    congr 1
    refine List.cons_eq_cons.mpr ⟨by simp, ?_⟩
    refine List.map_congr_left fun a _ => ?_
    simp only [Function.comp_apply, Prod.mk.injEq]
    refine ⟨?_, trivial⟩
    push_cast
    ring

theorem explodeGo_term {H : ℕ → Timer} {id : ℕ} {t : ℤ} (hp : 0 < (H id).dt) :
    ∀ (N : ℕ) (te : ℤ) (acc : Sched), (t - te).toNat ≤ N →
    ∃ n acc',
      (∀ fuel, n ≤ fuel → explodeGo H id t fuel te acc = some acc') ∧
      (te < t → ∃ k ∈ keys acc', t ≤ k) := by
  intro N
  induction N with
  | zero =>
    intro te acc hN
    have hte : ¬ te < t := by omega
    exact ⟨0, acc, fun fuel _ => explodeGo_done hte, fun h => absurd h hte⟩
  | succ N ih =>
    intro te acc hN
    by_cases hte : te < t
    · have hmeas : (t - (te + (H id).dt)).toNat ≤ N := by omega
      obtain ⟨n, acc', hfuel, hocc⟩ :=
        ih (te + (H id).dt) (insertT acc (te + (H id).dt) (some id)) hmeas
      refine ⟨n + 1, acc', ?_, ?_⟩
      · intro fuel hf
        obtain ⟨f, rfl⟩ : ∃ f, fuel = f + 1 := ⟨fuel - 1, by omega⟩
        simp only [explodeGo, if_pos hte]
        exact hfuel f (by omega)
      · intro _
        by_cases hte2 : te + (H id).dt < t
        · exact hocc hte2
        · refine ⟨insertKey acc (te + (H id).dt), ?_, ?_⟩
          · have hmem : (insertKey acc (te + (H id).dt), some id) ∈ acc' :=
              explodeGo_mem_mono (hfuel n (le_refl n))
                (mem_insertT.mpr (Or.inl rfl))
            exact List.mem_map_of_mem Prod.fst hmem
          · have := le_insertKey acc (te + (H id).dt)
            omega
    · exact ⟨0, acc, fun fuel _ => explodeGo_done hte, fun h => absurd h hte⟩

/-! ## A single repeating timer, advanced in one set call -/

theorem takeWhile_all_of_le {m : Sched} {t : ℤ} (h : ∀ e ∈ m, e.1 ≤ t) :
    (m.takeWhile fun e => decide (e.1 ≤ t)) = m := by
  induction m with
  | nil => rfl
  | cons a rest ih =>
    have ha := h a (List.mem_cons_self _ _)
    simp only [List.takeWhile_cons, decide_eq_true ha, if_true]
    rw [ih fun e he => h e (List.mem_cons_of_mem _ he)]

theorem dropWhile_nil_of_le {m : Sched} {t : ℤ} (h : ∀ e ∈ m, e.1 ≤ t) :
    (m.dropWhile fun e => decide (e.1 ≤ t)) = [] := by
  induction m with
  | nil => rfl
  | cons a rest ih =>
    have ha := h a (List.mem_cons_self _ _)
    simp only [List.dropWhile_cons, decide_eq_true ha, if_true]
    exact ih fun e he => h e (List.mem_cons_of_mem _ he)

theorem elPairs_of_const {H : ℕ → Timer} {id : ℕ} {l : Sched}
    (hv : ∀ e ∈ l, e.2 = some id) (hc : (H id).cancelled = false) :
    elPairs H l = l.map fun e => (e.1, id) := by
  induction l with
  | nil => rfl
  | cons e rest ih =>
    have he := hv e (List.mem_cons_self _ _)
    have hpick : elPick H e = some (e.1, id) := by simp [elPick, he, hc]
    simp only [elPairs, List.filterMap_cons, hpick, List.map_cons]
    rw [← elPairs]
    rw [ih fun x hx => hv x (List.mem_cons_of_mem _ hx)]

theorem sorted_single_run {id : ℕ} {t0 p : ℤ} (hp : 0 < p) (N : ℕ) :
    SortedS ((t0, some id) ::
      (List.range N).map fun (i : ℕ) => (t0 + ((i : ℤ) + 1) * p, some id)) := by
  have hmono : ∀ i j : ℕ, i < j →
      t0 + ((i : ℤ) + 1) * p < t0 + ((j : ℤ) + 1) * p := by
    intro i j hij
    have : ((i : ℤ) + 1) < ((j : ℤ) + 1) := by exact_mod_cast Nat.succ_lt_succ hij
    have := mul_lt_mul_of_pos_right this hp
    omega
  unfold SortedS keys
  rw [List.map_cons, List.map_map, List.pairwise_cons]
  constructor
  · intro b hb
    simp only [List.mem_map, Function.comp_apply, List.mem_range] at hb
    obtain ⟨i, _, rfl⟩ := hb
    have hi : (0 : ℤ) ≤ (i : ℤ) := Int.natCast_nonneg i
    nlinarith
  · rw [List.pairwise_map]
    exact (List.pairwise_lt_range N).imp fun {i j} hij => hmono i j hij

/-- C2 (amended): a lone repeating timer with delay `p > 0`, scheduled at
`t0` and advanced by a single `set(t0 + N*p)` call, fires `N + 1` times
(the occurrences at `t0, t0+p, …, t0+N*p`, in increasing key order; the
occurrence at exactly the target also elapses because the cut is
`upper_bound(t)`), and no occurrence of it survives the call. -/
theorem c2_amended {H : ℕ → Timer} {id : ℕ} {t0 p : ℤ} {N fuel : ℕ}
    (hdt : (H id).dt = p) (hrep : (H id).rep = true) (hcan : (H id).cancelled = false)
    (hp : 0 < p) (hfuel : N ≤ fuel) :
    setSched H fuel [(t0, some id)] (t0 + (N : ℤ) * p) =
      .ok ⟨List.replicate (N + 1) id, oneHour, []⟩ := by
  set t : ℤ := t0 + (N : ℤ) * p with ht
  set accN : Sched :=
    (List.range N).map (fun (i : ℕ) => (t0 + ((i : ℤ) + 1) * p, some id)) with hacc
  have hNp : 0 ≤ (N : ℤ) * p := mul_nonneg (Int.natCast_nonneg N) (le_of_lt hp)
  have hexp : explodeGo H id t fuel t0 [] = some accN := by
    have := explodeGo_run (t := t) hdt hp N fuel t0 []
      (by intro x hx; simp [keys] at hx)
      (by simp [SortedS, keys])
      (by
        intro i hi
        have hiN : ((i : ℤ)) < (N : ℤ) := by exact_mod_cast hi
        have := mul_lt_mul_of_pos_right hiN hp
        omega)
      (by omega) hfuel
    simpa using this
  have hgo : repeatGo H fuel t [(t0, some id)] [] = .ok accN := by
    simp only [repeatGo, if_neg (by omega : ¬ t < t0), hrep, hcan, Bool.not_false,
      Bool.and_self, if_pos, hexp]
  have h1 : repeatStep H fuel [(t0, some id)] t = .ok ((t0, some id) :: accN) := by
    unfold repeatStep
    rw [hgo]
    simp only [Except.map]
    congr 1
    have hsorted : SortedS ([(t0, some id)] ++ accN) := by
      simpa using sorted_single_run hp N
    rw [mergeInto_append hsorted]
    rfl
  have hall : ∀ e ∈ (t0, some id) :: accN, e.1 ≤ t := by
    intro e he
    rcases List.mem_cons.mp he with rfl | he'
    · simp only
      omega
    · simp only [hacc, List.mem_map, List.mem_range] at he'
      obtain ⟨i, hi, rfl⟩ := he'
      simp only
      have hiN : ((i : ℤ)) + 1 ≤ (N : ℤ) := by exact_mod_cast Nat.succ_le_of_lt hi
      have := mul_le_mul_of_nonneg_right hiN (le_of_lt hp)
      omega
  have h2 : sweepGo H (((t0, some id) :: accN).dropWhile fun e => decide (e.1 ≤ t)) =
      .ok ([], []) := by
    rw [dropWhile_nil_of_le hall]
    rfl
  have hvals : ∀ e ∈ (t0, some id) :: accN, e.2 = some id := by
    intro e he
    rcases List.mem_cons.mp he with rfl | he'
    · rfl
    · simp only [hacc, List.mem_map, List.mem_range] at he'
      obtain ⟨i, _, rfl⟩ := he'
      rfl
  have hlive : AllLive ((((t0, some id) :: accN).takeWhile fun e => decide (e.1 ≤ t)) ++ []) := by
    rw [takeWhile_all_of_le hall, List.append_nil]
    intro e he
    rw [hvals e he]
    exact Option.some_ne_none id
  obtain ⟨el, h3⟩ := collectElapsed_ok_of_live hlive
  have hel : el = List.replicate (N + 1) id := by
    have hpairs := collectElapsed_ok_pairs h3
    rw [takeWhile_all_of_le hall, List.append_nil] at hpairs
    rw [hpairs, elPairs_of_const hvals hcan, List.map_map]
    have hlen : ((t0, some id) :: accN).length = N + 1 := by
      simp [hacc]
    calc ((t0, some id) :: accN).map (Prod.snd ∘ fun e => (e.1, id))
        = ((t0, some id) :: accN).map (fun _ => id) := rfl
      _ = List.replicate (N + 1) id := by rw [← hlen]; exact List.map_const' _ id
  have := setSched_eq_ok h1 h2 h3
  rw [hel] at this
  exact this

/-! ## Transform lemmas -/

theorem truncQ_intCast (n : ℤ) : truncQ (n : ℚ) = n := by
  unfold truncQ
  split
  · exact Int.floor_intCast n
  · exact Int.ceil_intCast n

theorem truncQ_nonneg {q : ℚ} (h : 0 ≤ q) : 0 ≤ truncQ q := by
  unfold truncQ
  rw [if_pos h]
  exact Int.floor_nonneg.mpr h

theorem applyDur_one {m0 : ℤ} (d : ℤ) : Linear.applyDur ⟨1, m0⟩ d = d := by
  unfold Linear.applyDur
  simp only [one_mul]
  exact truncQ_intCast d

/-! ## Reachable schedules -/

theorem remove_keys (m : Sched) (id : ℕ) :
    keys (m.map fun e => if e.2 = some id then (e.1, none) else e) = keys m := by
  unfold keys
  rw [List.map_map]
  refine List.map_congr_left fun e _ => ?_
  by_cases h : e.2 = some id <;> simp [h]

theorem reach_sorted {H : ℕ → Timer} {s : Sched} (h : Reach H s) : SortedS s := by
  induction h with
  | init => simp [SortedS, keys]
  | add m now id hr ih => exact insertT_sorted ih
  | set m fuel t o hr hset ih => exact setSched_sorted hset ih
  | rem m id hr ih =>
    unfold SortedS
    rw [remove_keys]
    exact ih

theorem insertKey_insertT_gt (m : Sched) (t : ℤ) (v : Option ℕ) :
    insertKey m t < insertKey (insertT m t v) t := by
  have h2ne : insertKey (insertT m t v) t ∉ keys (insertT m t v) :=
    insertKey_not_mem _ t
  have hmem : insertKey m t ∈ keys (insertT m t v) := by
    unfold insertT
    exact mem_keys_putSorted.mpr (Or.inl rfl)
  have hne : insertKey (insertT m t v) t ≠ insertKey m t := fun he => h2ne (he ▸ hmem)
  have hnotm : insertKey (insertT m t v) t ∉ keys m := by
    intro hk
    exact h2ne (by unfold insertT; exact mem_keys_putSorted.mpr (Or.inr hk))
  have hle := le_insertKey (insertT m t v) t
  by_contra hlt
  push_neg at hlt
  rcases lt_or_eq_of_le hlt with hlt' | he
  · exact hnotm (insertKey_min m t _ hle hlt')
  · exact hne he

/-! ## Lower bounds on exploded keys -/

theorem explodeGo_new_keys {H : ℕ → Timer} {id : ℕ} {t : ℤ} :
    ∀ {fuel : ℕ} {te : ℤ} {acc acc' : Sched}, explodeGo H id t fuel te acc = some acc' →
    ∀ e ∈ acc', e ∈ acc ∨
      ∃ j : ℕ, 1 ≤ j ∧ te + (j : ℤ) * (H id).dt ≤ e.1 ∧ e.2 = some id := by
  intro fuel
  induction fuel with
  | zero =>
    intro te acc acc' h e he
    rw [explodeGo] at h
    split at h
    · cases h
    · cases h; exact Or.inl he
  | succ n ih =>
    intro te acc acc' h e he
    rw [explodeGo] at h
    split at h
    · rcases ih h e he with h' | ⟨j, hj, hkey, hval⟩
      · rcases mem_insertT.mp h' with rfl | h''
        · refine Or.inr ⟨1, le_refl 1, ?_, rfl⟩
          simp only [Nat.cast_one, one_mul]
          exact le_insertKey acc (te + (H id).dt)
        · exact Or.inl h''
      · refine Or.inr ⟨j + 1, by omega, ?_, hval⟩
        push_cast
        linarith
    · cases h; exact Or.inl he

theorem putSorted_ne_nil (m : Sched) (t : ℤ) (v : Option ℕ) : putSorted m t v ≠ [] := by
  cases m with
  | nil => simp [putSorted]
  | cons e rest =>
    unfold putSorted
    split <;> simp

/-! ## Claims -/

/-- C1 (amended): in a successful `set(t)`, every elapsed timer comes from
an entry of the post-expansion schedule whose key is ≤ `t` (an entry due
exactly at `t` also elapses, because the cut is `upper_bound(t)`), whose
cancelled flag is false at collection time, and the elapsed sequence is
ordered by schedule key strictly ascending.  The strict `< t` of the claim is
refuted by `c1_counterexample`. -/
theorem c1_amended {H : ℕ → Timer} {fuel : ℕ} {m : Sched} {t : ℤ} {o : SetOut}
    (hs : SortedS m) (h : setSched H fuel m t = .ok o) :
    ∃ m2, repeatStep H fuel m t = .ok m2 ∧
      ∃ L : List (ℤ × ℕ),
        o.elapsed = L.map Prod.snd ∧
        List.Pairwise (· < ·) (L.map Prod.fst) ∧
        ∀ pr ∈ L, pr.1 ≤ t ∧ (pr.1, some pr.2) ∈ m2 ∧ (H pr.2).cancelled = false := by
  obtain ⟨m2, swept, rest, el, h1, h2, h3, ho⟩ := setSched_ok_elim h
  refine ⟨m2, h1, elPairs H (m2.takeWhile fun e => decide (e.1 ≤ t)), ?_, ?_, ?_⟩
  · have hpairs := collectElapsed_ok_pairs h3
    have hswept : elPairs H swept = [] := elPairs_eq_nil (sweepGo_spec h2).2.1
    rw [ho]
    show el = _
    rw [hpairs, elPairs_append, hswept, List.append_nil]
  · have hm2 : SortedS m2 := repeatStep_sorted h1 hs
    have hpre : SortedS (m2.takeWhile fun e => decide (e.1 ≤ t)) := sorted_takeWhile hm2
    exact List.Pairwise.sublist (elPairs_keys_sublist H _) hpre
  · intro pr hpr
    obtain ⟨hmem, hcan⟩ := mem_elPairs hpr
    exact ⟨mem_pre_le hmem, (List.takeWhile_sublist _).subset hmem, hcan⟩

/-- C1 witness: a concrete successful run discharging the hypotheses of
`c1_amended`. -/
theorem c1_witness :
    SortedS [((5 : ℤ), some 0)] ∧
    setSched heapOnce 5 [((5 : ℤ), some 0)] 7 = .ok ⟨[0], oneHour, []⟩ ∧
    ∃ m2, repeatStep heapOnce 5 [((5 : ℤ), some 0)] 7 = .ok m2 ∧
      ∃ L : List (ℤ × ℕ),
        (SetOut.mk [0] oneHour []).elapsed = L.map Prod.snd ∧
        List.Pairwise (· < ·) (L.map Prod.fst) ∧
        ∀ pr ∈ L, pr.1 ≤ 7 ∧ (pr.1, some pr.2) ∈ m2 ∧ (heapOnce pr.2).cancelled = false :=
  ⟨by decide, by rfl, c1_amended (by decide) (by rfl)⟩

/-- C1 counterexample: an entry due exactly at the target elapses, so
"every elapsed timer comes from an entry with key < t" is false:
with the schedule `{5 ↦ timer}`, `set(5)` returns that timer although no
entry has key < 5. -/
theorem c1_counterexample : claimC1At heapOnce 5 [((5 : ℤ), some 0)] 5 = false := by rfl

/-- C2 witness: a concrete instance of `c2_amended`: one repeating
10-tick timer due at 0, advanced to 20 in one call, fires 3 times. -/
theorem c2_witness :
    (heapRep 0).dt = 10 ∧ (heapRep 0).rep = true ∧ (heapRep 0).cancelled = false ∧
    (0 : ℤ) < 10 ∧ (2 : ℕ) ≤ 5 ∧
    setSched heapRep 5 [((0 : ℤ), some 0)] ((0 : ℤ) + ((2 : ℕ) : ℤ) * 10) =
      .ok ⟨List.replicate 3 0, oneHour, []⟩ :=
  ⟨rfl, rfl, rfl, by decide, by decide, c2_amended rfl rfl rfl (by decide) (by decide)⟩

/-- C2 counterexample: the count `N` in the claim is off by one: a repeating
10-tick timer due at 0, advanced to 10 (`N = 1`), appears twice in
`elapsed` (occurrences at 0 and at 10), not once. -/
theorem c2_counterexample : claimC2At heapRep 5 0 0 10 1 = false := by rfl

/-- C3 (amended): `add(now, tm)` returns the transform applied to
(minimum key − the timer's *nominal* key `now + tm.dt`), where the
minimum is the head of the (sorted) schedule after insertion; with unit
slope, converting the returned duration back and adding it to the
*nominal key* — not to `now` — recovers the minimum key.  The wording
"added to now" in the claim is refuted by `c3_counterexample`. -/
theorem c3_amended (H : ℕ → Timer) (c : Clock) (now : ℤ) (id : ℕ)
    (hs : SortedS c.timers) :
    ∃ hd tail, (Clock.add H c now id).2.timers = hd :: tail ∧
      (∀ e ∈ hd :: tail, hd.1 ≤ e.1) ∧
      (Clock.add H c now id).1 = c.f.applyDur (hd.1 - (now + (H id).dt)) ∧
      (c.f.k = 1 → (Clock.add H c now id).1 + (now + (H id).dt) = hd.1) := by
  obtain ⟨hd, tail, heq⟩ := List.exists_cons_of_ne_nil
    (putSorted_ne_nil c.timers (insertKey c.timers (now + (H id).dt)) (some id))
  have heqT : insertT c.timers (now + (H id).dt) (some id) = hd :: tail := heq
  have hsort : SortedS (hd :: tail) := heqT ▸ insertT_sorted hs
  have hp : ∀ b ∈ keys tail, hd.1 < b := by
    have h2 := hsort
    unfold SortedS keys at h2
    rw [List.map_cons, List.pairwise_cons] at h2
    exact h2.1
  have hmin : ∀ e ∈ hd :: tail, hd.1 ≤ e.1 := by
    intro e he
    rcases List.mem_cons.mp he with rfl | he'
    · exact le_refl _
    · exact le_of_lt (hp e.1 (List.mem_map_of_mem Prod.fst he'))
  have h2timers : (Clock.add H c now id).2.timers = hd :: tail := heqT
  have h1eq : (Clock.add H c now id).1 = c.f.applyDur (hd.1 - (now + (H id).dt)) := by
    show c.f.applyDur ((match insertT c.timers (now + (H id).dt) (some id) with
      | [] => 0
      | e :: _ => e.1) - (now + (H id).dt)) = _
    rw [heqT]
  refine ⟨hd, tail, h2timers, hmin, h1eq, ?_⟩
  intro hk1
  rw [h1eq]
  unfold Linear.applyDur
  rw [hk1, one_mul, truncQ_intCast]
  ring

/-- C3 witness: a concrete instance of `c3_amended` on the fresh clock. -/
theorem c3_witness :
    SortedS (Clock.timers {}) ∧
    ∃ hd tail, (Clock.add heapOnce {} 0 0).2.timers = hd :: tail ∧
      (∀ e ∈ hd :: tail, hd.1 ≤ e.1) ∧
      (Clock.add heapOnce {} 0 0).1 =
        (Clock.f {}).applyDur (hd.1 - (0 + (heapOnce 0).dt)) ∧
      ((Clock.f {}).k = 1 →
        (Clock.add heapOnce {} 0 0).1 + (0 + (heapOnce 0).dt) = hd.1) :=
  ⟨by decide, c3_amended heapOnce {} 0 0 (by decide)⟩

/-- C3 counterexample: on the fresh clock (identity transform), adding a
10-tick timer at `now = 0` returns 0 (the schedule minimum equals the
timer's own nominal key); converted back and added to `now` this gives 0,
not the minimum key 10. -/
theorem c3_counterexample : ¬ claimC3At heapOnce {} 0 0 := by
  intro h
  have h2 := h ((10 : ℤ), some 0) [] (by rfl)
  have hr : (Clock.add heapOnce {} 0 0).1 = (0 : ℤ) := by
    show Linear.applyDur ⟨1, 0⟩ ((10 : ℤ) - (0 + (heapOnce 0).dt)) = 0
    norm_num [Linear.applyDur, truncQ, heapOnce]
  rw [hr] at h2
  unfold Linear.unapplyDur at h2
  norm_num at h2

/-- C4 (amended): `change(a, b, v)` followed by `at(a) = b` holds exactly
when the prior offset `m` and the new speed `v` satisfy `v·a + m = a`
(in particular on a fresh clock with `v = 1`); in general `at(a)`
returns `trunc(v·a + m + (b − a))`.  The unconditional claim is refuted
by `c4_counterexample`. -/
theorem c4_amended (c : Clock) (a b : ℤ) (v : ℚ)
    (h : v * (a : ℚ) + (c.f.m : ℚ) = (a : ℚ)) :
    (c.change a b v).atRef a = b := by
  show truncQ (v * (a : ℚ) + ((c.f.m + (b - a) : ℤ) : ℚ)) = b
  have heq : v * (a : ℚ) + ((c.f.m + (b - a) : ℤ) : ℚ) = ((b : ℤ) : ℚ) := by
    push_cast
    linarith
  rw [heq, truncQ_intCast]

/-- C4 witness: on the fresh clock with `v = 1`, `change(5, 100, 1)` then
`at(5) = 100`. -/
theorem c4_witness :
    (1 : ℚ) * ((5 : ℤ) : ℚ) + ((Clock.f {}).m : ℚ) = ((5 : ℤ) : ℚ) ∧
    (Clock.change {} 5 100 1).atRef 5 = 100 :=
  ⟨by show (1 : ℚ) * ((5 : ℤ) : ℚ) + (((0 : ℤ)) : ℚ) = ((5 : ℤ) : ℚ); push_cast; ring,
    c4_amended {} 5 100 1
      (by show (1 : ℚ) * ((5 : ℤ) : ℚ) + (((0 : ℤ)) : ℚ) = ((5 : ℤ) : ℚ); push_cast; ring)⟩

/-- C4 counterexample: on the fresh clock, `change(1, 0, 0)` then
`at(1)` returns −1, not 0: the claim fails for speeds other than the
fixed point of the transform. -/
theorem c4_counterexample : ¬ claimC4At {} 1 0 0 := by
  intro h
  have hval : (Clock.change {} 1 0 0).atRef 1 = -1 := by
    show truncQ ((0 : ℚ) * ((1 : ℤ) : ℚ) + ((((0 : ℤ) + ((0 : ℤ) - 1)) : ℤ) : ℚ)) = -1
    have heq : (0 : ℚ) * ((1 : ℤ) : ℚ) + ((((0 : ℤ) + ((0 : ℤ) - 1)) : ℤ) : ℚ) =
        ((-1 : ℤ) : ℚ) := by
      push_cast
      ring
    rw [heq, truncQ_intCast]
  have : (-1 : ℤ) = 0 := hval.symm.trans h
  exact absurd this (by norm_num)

/-- Helper for the C5 counterexample: with a zero-delay repeating timer,
the explode loop never finishes, whatever the fuel (the source's `while`
loop runs forever, re-inserting the same instant with tick-bumping). -/
theorem explodeZero_none : ∀ (fuel : ℕ) (acc : Sched),
    explodeGo heapZero 0 1 fuel 0 acc = none := by
  intro fuel
  induction fuel with
  | zero =>
    intro acc
    rw [explodeGo]
    norm_num
  | succ n ih =>
    intro acc
    rw [explodeGo]
    rw [if_pos (by norm_num : (0 : ℤ) < 1)]
    have hz : (0 : ℤ) + (heapZero 0).dt = 0 := by simp [heapZero]
    simp only [hz]
    exact ih _

/-- C5 (amended): for an entry whose timer has *positive* delay, the
explode loop terminates — there is a fuel bound past which the result is
stable — and when the key of the entry is before the target, the result holds
at least one generated occurrence at a key ≥ the target.  The
unconditional termination in the claim is refuted by `c5_counterexample` (delay 0). -/
theorem c5_amended {H : ℕ → Timer} {id : ℕ} {t : ℤ} (te : ℤ) (acc : Sched)
    (hp : 0 < (H id).dt) :
    ∃ n acc',
      (∀ fuel, n ≤ fuel → explodeGo H id t fuel te acc = some acc') ∧
      (te < t → ∃ k ∈ keys acc', t ≤ k) :=
  explodeGo_term hp (t - te).toNat te acc (le_refl _)

/-- C5 witness: a concrete instance of `c5_amended` for a repeating
10-tick timer at key 0 against target 25. -/
theorem c5_witness :
    (0 : ℤ) < (heapRep 0).dt ∧
    ∃ n acc',
      (∀ fuel, n ≤ fuel → explodeGo heapRep 0 25 fuel 0 [] = some acc') ∧
      ((0 : ℤ) < 25 → ∃ k ∈ keys acc', 25 ≤ k) :=
  ⟨by decide, c5_amended 0 [] (by decide)⟩

/-- C5 counterexample: a repeating timer with delay 0 at key 0, target 1:
the repeat-expansion loop never terminates, refuting "for every schedule
and every target t, the repeat-expansion phase of set(t) terminates". -/
theorem c5_counterexample : ¬ ExplodeTerminatesAt heapZero 0 1 0 := by
  rintro ⟨fuel, acc, h⟩
  rw [explodeZero_none fuel []] at h
  cases h

/-- C6: after a successful `set(t1)` on a schedule with no detached
slots, every surviving entry has key > `t1`, and any later `set(t2)` with
`t2 ≤ t1` (whatever its fuel) succeeds and returns an empty elapsed
sequence: moving backward never fires timers. -/
theorem c6_confirmed {H : ℕ → Timer} {fuel1 : ℕ} {m : Sched} {t1 t2 : ℤ} {o1 : SetOut}
    (hs : SortedS m) (hl : AllLive m)
    (h1 : setSched H fuel1 m t1 = .ok o1) (h21 : t2 ≤ t1) :
    (∀ e ∈ o1.sched, t1 < e.1) ∧
    ∀ fuel2 : ℕ, ∃ o2, setSched H fuel2 o1.sched t2 = .ok o2 ∧ o2.elapsed = [] := by
  have hfut := setSched_sched_future h1 hs
  have hlive := setSched_sched_live h1 hl
  refine ⟨hfut, fun fuel2 => ?_⟩
  exact set_future_empty fuel2 hlive fun e he => lt_of_le_of_lt h21 (hfut e he)

/-- C6 witness: consuming the only timer at key 3 with `set(5)` leaves an
empty schedule, and `set(2)` afterwards elapses nothing. -/
theorem c6_witness :
    SortedS [((3 : ℤ), some 0)] ∧ AllLive [((3 : ℤ), some 0)] ∧
    setSched heapOnce 5 [((3 : ℤ), some 0)] 5 = .ok ⟨[0], oneHour, []⟩ ∧ (2 : ℤ) ≤ 5 ∧
    ((∀ e ∈ (SetOut.mk [0] oneHour []).sched, (5 : ℤ) < e.1) ∧
      ∀ fuel2 : ℕ, ∃ o2,
        setSched heapOnce fuel2 (SetOut.mk [0] oneHour []).sched 2 = .ok o2 ∧
        o2.elapsed = []) :=
  ⟨by decide, by decide, by rfl, by decide,
    @c6_confirmed heapOnce 5 [((3 : ℤ), some 0)] 5 2 (SetOut.mk [0] oneHour [])
      (by decide) (by decide) (by rfl) (by decide)⟩

/-- C7: the code is *not* total once `remove` has detached an entry:
`set(10)` on a schedule holding a detached slot at key 5 dereferences the
null slot (reading `repeat` in the repeat-expansion walk), modelled as
`Err.nullDeref`.  This matches the hazard note of the spec; the claim that
`set` never reads through a detached slot is what the code was meant to
satisfy. -/
theorem c7_null_deref :
    Clock.set heapOnce 5 ⟨{}, [((5 : ℤ), none)]⟩ 10 = .error .nullDeref := by rfl

/-- C8: every schedule reachable by `add`, `set` and `remove` has strictly
sorted (hence unique) keys, and insertion with nominal key `t` goes to
the smallest unoccupied key ≥ `t`; a second insertion at the same nominal
key lands strictly later, preserving insertion order. -/
theorem c8_confirmed (H : ℕ → Timer) (s : Sched) (h : Reach H s) (t : ℤ) :
    SortedS s ∧
    t ≤ insertKey s t ∧
    insertKey s t ∉ keys s ∧
    (∀ k, t ≤ k → k < insertKey s t → k ∈ keys s) ∧
    ∀ v : Option ℕ, insertKey s t < insertKey (insertT s t v) t :=
  ⟨reach_sorted h, le_insertKey s t, insertKey_not_mem s t,
    fun k hk1 hk2 => insertKey_min s t k hk1 hk2,
    fun v => insertKey_insertT_gt s t v⟩

/-- C8 witness: the reachable schedule obtained by one `add` on the fresh
clock, probed at nominal key 3. -/
theorem c8_witness :
    SortedS (insertT [] (0 + (heapOnce 0).dt) (some 0)) ∧
    (3 : ℤ) ≤ insertKey (insertT [] (0 + (heapOnce 0).dt) (some 0)) 3 ∧
    insertKey (insertT [] (0 + (heapOnce 0).dt) (some 0)) 3 ∉
      keys (insertT [] (0 + (heapOnce 0).dt) (some 0)) ∧
    (∀ k, (3 : ℤ) ≤ k → k < insertKey (insertT [] (0 + (heapOnce 0).dt) (some 0)) 3 →
      k ∈ keys (insertT [] (0 + (heapOnce 0).dt) (some 0))) ∧
    ∀ v : Option ℕ,
      insertKey (insertT [] (0 + (heapOnce 0).dt) (some 0)) 3 <
        insertKey (insertT (insertT [] (0 + (heapOnce 0).dt) (some 0)) 3 v) 3 :=
  c8_confirmed heapOnce (insertT [] (0 + (heapOnce 0).dt) (some 0))
    (Reach.add [] 0 0 Reach.init) 3

/-- C9: in a successful `set(t)` on a sorted schedule, the virtual snooze
is strictly positive: it is either the one-hour fallback or `k − t` for
`k` the key of the first non-cancelled live entry past `t` (every live
entry strictly between `t` and `k` is cancelled); consequently the
reference-time snooze `trunc(slope · snooze)` is nonnegative whenever the
slope of the transform is nonnegative. -/
theorem c9_confirmed {H : ℕ → Timer} {fuel : ℕ} {m : Sched} {t : ℤ} {o : SetOut}
    (hs : SortedS m) (h : setSched H fuel m t = .ok o) :
    0 < o.snoozeV ∧
    (∀ f : Linear, 0 ≤ f.k → 0 ≤ f.applyDur o.snoozeV) ∧
    (o.snoozeV = oneHour ∨
      ∃ m2 k id, repeatStep H fuel m t = .ok m2 ∧ (k, some id) ∈ m2 ∧ t < k ∧
        (H id).cancelled = false ∧ o.snoozeV = k - t ∧
        ∀ e ∈ m2, t < e.1 → e.1 < k →
          ∃ id2, e.2 = some id2 ∧ (H id2).cancelled = true) := by
  obtain ⟨m2, swept, rest, el, h1, h2, h3, ho⟩ := setSched_ok_elim h
  have hm2 : SortedS m2 := repeatStep_sorted h1 hs
  obtain ⟨hpost, hsweptc, hrestc⟩ := sweepGo_spec h2
  subst ho
  have hdrop : SortedS (m2.dropWhile fun e => decide (e.1 ≤ t)) := sorted_dropWhile hm2
  cases rest with
  | nil =>
    have hpos : (0 : ℤ) < snoozeOf t [] := by norm_num [snoozeOf, oneHour]
    refine ⟨hpos, ?_, Or.inl rfl⟩
    intro f hf
    unfold Linear.applyDur
    apply truncQ_nonneg
    have hq : (0 : ℚ) ≤ ((snoozeOf t [] : ℤ) : ℚ) := by exact_mod_cast le_of_lt hpos
    exact mul_nonneg hf hq
  | cons e tail =>
    have hemem : e ∈ m2.dropWhile fun e => decide (e.1 ≤ t) := by
      rw [hpost]
      exact List.mem_append_right _ (List.mem_cons_self _ _)
    have het : t < e.1 := sorted_dropWhile_gt hm2 e hemem
    have hpos : (0 : ℤ) < snoozeOf t (e :: tail) := by
      show (0 : ℤ) < e.1 - t
      omega
    obtain ⟨id, hid, hcan⟩ := hrestc e tail rfl
    refine ⟨hpos, ?_, Or.inr ⟨m2, e.1, id, h1, ?_, het, hcan, rfl, ?_⟩⟩
    · intro f hf
      unfold Linear.applyDur
      apply truncQ_nonneg
      have hq : (0 : ℚ) ≤ ((snoozeOf t (e :: tail) : ℤ) : ℚ) := by
        exact_mod_cast le_of_lt hpos
      exact mul_nonneg hf hq
    · have : e ∈ m2 := (List.dropWhile_sublist _).subset hemem
      rw [← hid, Prod.mk.eta]
      exact this
    · intro e2 he2 ht2 hk2
      have hsplit := List.takeWhile_append_dropWhile
        (p := fun e => decide (e.1 ≤ t)) (l := m2)
      rw [← hsplit] at he2
      rcases List.mem_append.mp he2 with hpre | hdrop2
      · have := mem_pre_le hpre
        omega
      · rw [hpost] at hdrop2
        rcases List.mem_append.mp hdrop2 with hsw | hr
        · exact hsweptc e2 hsw
        · rcases List.mem_cons.mp hr with rfl | htail
          · exact absurd hk2 (lt_irrefl _)
          · exfalso
            rw [hpost] at hdrop
            unfold SortedS keys at hdrop
            rw [List.map_append, List.map_cons, List.pairwise_append] at hdrop
            have hcons := hdrop.2.1
            rw [List.pairwise_cons] at hcons
            have := hcons.1 e2.1 (List.mem_map_of_mem Prod.fst htail)
            omega

/-- C9 witness: one live one-shot timer at key 5 probed with `set(3)`:
snooze is `5 − 3 = 2`. -/
theorem c9_witness :
    SortedS [((5 : ℤ), some 0)] ∧
    setSched heapOnce 5 [((5 : ℤ), some 0)] 3 = .ok ⟨[], 2, [(5, some 0)]⟩ ∧
    ((0 : ℤ) < 2 ∧
      (∀ f : Linear, 0 ≤ f.k → 0 ≤ f.applyDur 2) ∧
      ((2 : ℤ) = oneHour ∨
        ∃ m2 k id, repeatStep heapOnce 5 [((5 : ℤ), some 0)] 3 = .ok m2 ∧
          (k, some id) ∈ m2 ∧ 3 < k ∧
          (heapOnce id).cancelled = false ∧ (2 : ℤ) = k - 3 ∧
          ∀ e ∈ m2, 3 < e.1 → e.1 < k →
            ∃ id2, e.2 = some id2 ∧ (heapOnce id2).cancelled = true)) :=
  ⟨by decide, by rfl,
    @c9_confirmed heapOnce 5 [((5 : ℤ), some 0)] 3 (SetOut.mk [] 2 [((5 : ℤ), some 0)])
      (by decide) (by rfl)⟩

/-- C10: every occurrence generated by repeat-expansion for an entry
stored at the bumped key `due + b` (nominal due instant `due`, bump `b`)
sits at a key ≥ `due + j·delay + b` for its occurrence index `j ≥ 1`:
the expansion is based on the resolved key, so the bump shifts every
later occurrence by at least `b`. -/
theorem c10_confirmed {H : ℕ → Timer} {id : ℕ} {t : ℤ} {fuel : ℕ} {due b : ℤ}
    {acc acc' : Sched}
    (h : explodeGo H id t fuel (due + b) acc = some acc') :
    ∀ e ∈ acc', e ∈ acc ∨
      ∃ j : ℕ, 1 ≤ j ∧ due + (j : ℤ) * (H id).dt + b ≤ e.1 ∧ e.2 = some id := by
  intro e he
  rcases explodeGo_new_keys h e he with h' | ⟨j, hj, hkey, hval⟩
  · exact Or.inl h'
  · exact Or.inr ⟨j, hj, by omega, hval⟩

/-- C10 witness: a repeating 10-tick timer stored at the bumped key
`10 + 3`, exploded against target 25: occurrences land at 23 and 33,
both ≥ nominal occurrence + bump. -/
theorem c10_witness :
    explodeGo heapRep 0 25 5 ((10 : ℤ) + 3) [] =
      some [(23, some 0), (33, some 0)] ∧
    ∀ e ∈ [((23 : ℤ), some 0), ((33 : ℤ), some 0)], e ∈ ([] : Sched) ∨
      ∃ j : ℕ, 1 ≤ j ∧ 10 + (j : ℤ) * (heapRep 0).dt + 3 ≤ e.1 ∧ e.2 = some 0 :=
  ⟨by rfl,
    c10_confirmed
      (by rfl : explodeGo heapRep 0 25 5 ((10 : ℤ) + 3) [] =
        some [((23 : ℤ), some 0), ((33 : ℤ), some 0)])⟩

end Showtime
